import Mathlib

/-!
Verification of the customer-record cleaning and merge scripts
(`merge_practice1.py` and `append_batch.py`).

Python strings are embedded as `List Char`; pandas missing values
(`None` / `NaN` / `<NA>`) are embedded as `none` of an `Option` type.
Numeric coercion (`pd.to_numeric(..., errors="coerce")`) is embedded as a
parser into `Option PyNum` (finite exact decimals, or infinities), and
the column casts `.astype("Int64")` — which raise on non-integral,
infinite or out-of-Int64-range floats — are embedded in `Except Unit`.
-/

namespace MergePractice

/-- Python strings, embedded as lists of characters. -/
abbrev PyStr := List Char

/-- Partial model of Python's `str.isspace` / `str.strip` character class:
Unicode whitespace.  Covers ASCII whitespace, the C1 and Unicode space
characters recognised by CPython.  Characters used in the theorems below
are correctly classified. -/
def isPySpace (c : Char) : Bool :=
  (0x9 ≤ c.toNat && c.toNat ≤ 0xD) || c.toNat = 0x20 ||
  (0x1C ≤ c.toNat && c.toNat ≤ 0x1F) || c.toNat = 0x85 || c.toNat = 0xA0 ||
  c.toNat = 0x1680 || (0x2000 ≤ c.toNat && c.toNat ≤ 0x200A) ||
  c.toNat = 0x2028 || c.toNat = 0x2029 || c.toNat = 0x202F ||
  c.toNat = 0x205F || c.toNat = 0x3000

/-- Python's `str.strip()`: remove leading and trailing whitespace. -/
def pyStrip (s : PyStr) : PyStr :=
  ((s.dropWhile isPySpace).reverse.dropWhile isPySpace).reverse

/-- Partial model of the NFKC mapping of a single character, as computed by
`unicodedata.normalize("NFKC", ·)`: U+037A GREEK YPOGEGRAMMENI has the
compatibility decomposition `<compat> 0020 0345` (SPACE followed by
COMBINING GREEK YPOGEGRAMMENI, which do not recompose), and the fullwidth
digits U+FF10–U+FF19 decompose to the ASCII digits.  Every other character
is treated as an NFKC fixed point; this is accurate for all ASCII
characters and for every other character appearing in this development
(in particular the Arabic-Indic digits U+0660–U+0669 and U+0345 itself
are NFKC fixed points). -/
def nfkcChar (c : Char) : PyStr :=
  if c = '\u037A' then [' ', '\u0345']
  else if c = '０' then ['0'] else if c = '１' then ['1']
  else if c = '２' then ['2'] else if c = '３' then ['3']
  else if c = '４' then ['4'] else if c = '５' then ['5']
  else if c = '６' then ['6'] else if c = '７' then ['7']
  else if c = '８' then ['8'] else if c = '９' then ['9']
  else [c]

/-- NFKC normalization of a string (characterwise, per `nfkcChar`). -/
def nfkc : PyStr → PyStr
  | [] => []
  | c :: cs => nfkcChar c ++ nfkc cs

/-- The function `normalize_str` from both scripts: `None`/`NaN` stays missing, otherwise
strip surrounding whitespace, apply NFKC, and collapse the empty string to
missing (`s or None`). -/
def normalize_str (s : Option PyStr) : Option PyStr :=
  match s with
  | none => none
  | some s =>
    if nfkc (pyStrip s) = [] then none else some (nfkc (pyStrip s))

/-- Partial model of the character class of Python's regex `\d` on `str`
patterns: the Unicode decimal digits (category `Nd`).  Covers the ASCII
digits together with the Arabic-Indic, Devanagari and fullwidth decimal
digits; all characters used in the theorems below are correctly
classified. -/
def isPyDigit (c : Char) : Bool :=
  c.isDigit || (0x660 ≤ c.toNat && c.toNat ≤ 0x669) ||
  (0x966 ≤ c.toNat && c.toNat ≤ 0x96F) ||
  (0xFF10 ≤ c.toNat && c.toNat ≤ 0xFF19)

/-- The function `normalize_phone` from both scripts: on a missing value return `None`;
otherwise delete every character not matched by `\d` and keep the result
only if exactly 10 or 11 digits remain. -/
def normalize_phone (p : Option PyStr) : Option PyStr :=
  match p with
  | none => none
  | some s =>
    if (s.filter isPyDigit).length = 10 ∨ (s.filter isPyDigit).length = 11 then
      some (s.filter isPyDigit)
    else none

/-- Numeric value of a list of ASCII digits. -/
def digitsToNat (ds : PyStr) : Nat :=
  ds.foldl (fun n c => n * 10 + (c.toNat - 0x30)) 0

/-- One numeric cell as produced by `pd.to_numeric`: a finite value
(represented here as the exact decimal it denotes) or a signed infinity.
`NaN` — which pandas treats as the missing sentinel throughout
(`fillna`, `astype` to `<NA>`) — is represented by `none` at the
`Option PyNum` level. -/
inductive PyNum where
  | finite (q : ℚ)
  | infinite (neg : Bool)
deriving DecidableEq, Repr

/-- Parse an optional exponent suffix: the empty rest means exponent 0;
`e`/`E`, an optional sign and a nonempty digit run mean that power of
ten; anything else fails. -/
def parseExp : PyStr → Option Int
  | [] => some 0
  | c :: t =>
    if c = 'e' ∨ c = 'E' then
      let se : Int × PyStr :=
        match t with
        | '-' :: u => (-1, u)
        | '+' :: u => (1, u)
        | u => (1, u)
      if se.2 ≠ [] ∧ se.2.all Char.isDigit then
        some (se.1 * (digitsToNat se.2 : Int))
      else none
    else none

/-- Parse a decimal mantissa `digits[.digits]` with at least one digit:
its digit value, the length of the fractional part, and the unconsumed
rest. -/
def parseMant (s : PyStr) : Option (Nat × Nat × PyStr) :=
  let ip := s.takeWhile Char.isDigit
  let r2 := s.dropWhile Char.isDigit
  match r2 with
  | '.' :: t =>
    let fp := t.takeWhile Char.isDigit
    let r3 := t.dropWhile Char.isDigit
    if ip = [] ∧ fp = [] then none
    else some (digitsToNat (ip ++ fp), fp.length, r3)
  | r2 => if ip = [] then none else some (digitsToNat ip, 0, r2)

/-- The exact rational `sign · d · 10 ^ (e - flen)` denoted by a parsed
mantissa and exponent. -/
def decValue (sign : Int) (d : Nat) (flen : Nat) (e : Int) : ℚ :=
  if 0 ≤ e - flen then mkRat (sign * (d : Int) * 10 ^ (e - flen).toNat) 1
  else mkRat (sign * (d : Int)) (10 ^ (flen - e).toNat)

/-- Parse a numeric literal as accepted by the pandas string-to-numeric
parser behind `pd.to_numeric(..., errors="coerce")`: an optional sign,
then either an infinity word (`inf`/`infinity`, any case) or a decimal
mantissa with an optional exponent.  Forms the pandas parser also
rejects (thousands separators, underscores, hex, non-ASCII digits)
are rejected here too and so degrade to missing under `coerce`;
`nan` words denote the missing sentinel and are likewise `none`. -/
def parseDec (s : PyStr) : Option PyNum :=
  let sr : Bool × PyStr :=
    match s with
    | '-' :: t => (true, t)
    | '+' :: t => (false, t)
    | t => (false, t)
  let neg := sr.1
  let rest := sr.2
  if rest.map Char.toLower = "inf".toList ∨
      rest.map Char.toLower = "infinity".toList then
    some (PyNum.infinite neg)
  else
    match parseMant rest with
    | none => none
    | some (d, flen, r) =>
      match parseExp r with
      | none => none
      | some e => some (PyNum.finite (decValue (if neg then -1 else 1) d flen e))

/-- One cell of `pd.to_numeric(raw, errors="coerce")`: missing stays
missing (`NaN`), unparseable strings degrade to missing, otherwise the
numeric value (surrounding whitespace is tolerated, as by the parser). -/
def toNumeric (s : Option PyStr) : Option PyNum :=
  match s with
  | none => none
  | some s => parseDec (pyStrip s)

/-- The smallest `int64` value, `-2 ^ 63`. -/
def int64Min : Int := -9223372036854775808

/-- The largest `int64` value, `2 ^ 63 - 1`. -/
def int64Max : Int := 9223372036854775807

/-- The column cast `.astype("Int64")` applied to one cell of a numeric
column: missing maps to `<NA>`; an integral value inside the `int64`
range to that integer; a non-integral, infinite or out-of-range value
raises (`cannot safely cast non-equivalent float64 to int64`).  The
model works with the exact decimal a cell denotes rather than its
float64 rounding; the two agree on integrality and range for all values
below the float64 exact-integer threshold `2 ^ 53` (see `intCell`). -/
def toInt64 (q : Option PyNum) : Except Unit (Option Int) :=
  match q with
  | none => Except.ok none
  | some (PyNum.finite x) =>
    if x.den = 1 ∧ int64Min ≤ x.num ∧ x.num ≤ int64Max then Except.ok (some x.num)
    else Except.error ()
  | some (PyNum.infinite _) => Except.error ()

/-- The points pipeline `.fillna(0).astype("Int64")` applied to one cell:
missing becomes `0`; otherwise as `toInt64`. -/
def pointsInt64 (q : Option PyNum) : Except Unit Int :=
  match q with
  | none => Except.ok 0
  | some (PyNum.finite x) =>
    if x.den = 1 ∧ int64Min ≤ x.num ∧ x.num ≤ int64Max then Except.ok x.num
    else Except.error ()
  | some (PyNum.infinite _) => Except.error ()

instance {ε α : Type} [DecidableEq ε] [DecidableEq α] :
    DecidableEq (Except ε α) := fun x y =>
  match x, y with
  | Except.ok a, Except.ok b =>
    if h : a = b then isTrue (by rw [h]) else
      isFalse (fun hc => by cases hc; exact h rfl)
  | Except.error a, Except.error b =>
    if h : a = b then isTrue (by rw [h]) else
      isFalse (fun hc => by cases hc; exact h rfl)
  | Except.ok _, Except.error _ => isFalse (fun hc => by cases hc)
  | Except.error _, Except.ok _ => isFalse (fun hc => by cases hc)

/-- Length of a month, in the proleptic Gregorian calendar used by
`pd.Timestamp`. -/
def daysInMonth (y m : Nat) : Nat :=
  if m = 2 then
    (if y % 4 = 0 && (y % 100 ≠ 0 || y % 400 = 0) then 29 else 28)
  else if m = 4 || m = 6 || m = 9 || m = 11 then 30 else 31

/-- Parse an ISO-style date `YYYY-MM-DD` (or `YYYY/MM/DD`) and check that
it is a real calendar date.  This is the fragment of the best-effort
parser `pd.to_datetime(raw, errors="coerce")` that this development
exercises; every other shape is treated as unparseable (`NaT`). -/
def parseDate (s : PyStr) : Option (Nat × Nat × Nat) :=
  match s with
  | [y1, y2, y3, y4, s1, m1, m2, s2, d1, d2] =>
    if ([y1, y2, y3, y4, m1, m2, d1, d2].all Char.isDigit ∧
        (s1 = '-' ∨ s1 = '/') ∧ s2 = s1) then
      let y := digitsToNat [y1, y2, y3, y4]
      let m := digitsToNat [m1, m2]
      let d := digitsToNat [d1, d2]
      if 1 ≤ m ∧ m ≤ 12 ∧ 1 ≤ d ∧ d ≤ daysInMonth y m then
        some (y, m, d)
      else none
    else none
  | _ => none

/-- Two-digit zero-padded decimal rendering (for `%m`, `%d`). -/
def pad2 (n : Nat) : PyStr :=
  [Char.ofNat (0x30 + n / 10 % 10), Char.ofNat (0x30 + n % 10)]

/-- Four-digit zero-padded decimal rendering (for `%Y`). -/
def pad4 (n : Nat) : PyStr :=
  [Char.ofNat (0x30 + n / 1000 % 10), Char.ofNat (0x30 + n / 100 % 10),
   Char.ofNat (0x30 + n / 10 % 10), Char.ofNat (0x30 + n % 10)]

/-- Rendering `strftime("%Y-%m-%d")` of a parsed date. -/
def fmtDate (ymd : Nat × Nat × Nat) : PyStr :=
  pad4 ymd.1 ++ '-' :: (pad2 ymd.2.1 ++ '-' :: pad2 ymd.2.2)

/-- The function `normalize_date` composed with the `%Y-%m-%d` rendering — the
`join_date` pipeline of both scripts (`pd.to_datetime(..., errors="coerce")`
followed by `strftime`, with `NaT` degrading to missing). -/
def normalize_date (s : Option PyStr) : Option PyStr :=
  match s with
  | none => none
  | some s => (parseDate (pyStrip s)).map fmtDate

/-- One raw CSV row after the column rename, all cells read as text
(`dtype=str`): canonical column names, missing cells as `none`. -/
structure RawRow where
  customer_id : Option PyStr
  name : Option PyStr
  email : Option PyStr
  phone : Option PyStr
  address : Option PyStr
  join_date : Option PyStr
  points : Option PyStr
deriving DecidableEq, Repr

/-- One raw table: its rows, plus whether the source actually had a
`points` column (`if "points" not in df.columns: df["points"] = None`). -/
structure RawTable where
  hasPoints : Bool
  rows : List RawRow
deriving DecidableEq, Repr

/-- One canonical (cleaned) customer Record.  `points` is an `Int`, never
missing, because the points column is `.fillna(0)`-ed before the cast. -/
structure Record where
  customer_id : Option Int
  name : Option PyStr
  email : Option PyStr
  phone : Option PyStr
  address : Option PyStr
  join_date : Option PyStr
  points : Int
deriving DecidableEq, Repr

/-- The function `clean` from both scripts, on one row: NFKC-normalize the five string
columns, then extract phone digits, cast `customer_id` to nullable Int64,
normalize the date, and coerce `points` (synthesized as missing when the
source has no points column) with missing defaulting to 0.  The `Int64`
casts can raise, which `Except` records. -/
def cleanRow (hasPoints : Bool) (r : RawRow) : Except Unit Record :=
  match toInt64 (toNumeric (normalize_str r.customer_id)),
        pointsInt64 (toNumeric (if hasPoints then r.points else none)) with
  | Except.ok cid, Except.ok pts =>
    Except.ok
      { customer_id := cid
        name := normalize_str r.name
        email := normalize_str r.email
        phone := normalize_phone (normalize_str r.phone)
        address := normalize_str r.address
        join_date := normalize_date r.join_date
        points := pts }
  | Except.error e, _ => Except.error e
  | _, Except.error e => Except.error e

/-- The function `clean` on all rows of a table; the whole call raises as soon as any
cell of a numeric column fails its `Int64` cast. -/
def cleanRows (hasPoints : Bool) : List RawRow → Except Unit (List Record)
  | [] => Except.ok []
  | r :: rs =>
    match cleanRow hasPoints r, cleanRows hasPoints rs with
    | Except.ok rec, Except.ok recs => Except.ok (rec :: recs)
    | Except.error e, _ => Except.error e
    | _, Except.error e => Except.error e

/-- Cleaning `clean(df)` of a whole table, as in `append_batch.py`: there
`normalize_date` is applied cell by cell and already returns the
formatted string (or `None`), so the date step cannot fail and the whole
call is the row-wise pipeline. -/
def cleanTable (t : RawTable) : Except Unit (List Record) :=
  cleanRows t.hasPoints t.rows

/-- A `join_date` cell inside the modelled date fragment: missing, or a
(timezone-naive) ISO date `parseDate` recognises.  A column of such
cells is inferred as `datetime64` by pandas (it holds only naive
`Timestamp`s and `NaT`), so `merge_practice1.py`'s `.dt` accessor works
on it; timezone-aware date strings — which can leave the applied column
as `object` dtype and make `.dt` raise — are outside the fragment. -/
def dateCell : Option PyStr → Bool
  | none => true
  | some s => (parseDate (pyStrip s)).isSome

/-- Cleaning `clean(df)` of a whole table, as in `merge_practice1.py`:
the same row-wise pipeline, except that `join_date` is normalized
column-wise (`.apply(normalize_date)` followed by `.dt.strftime`).  The
`.dt` accessor requires the applied column to be datetime64-typed: on a
0-row table the column stays `object` dtype and `.dt` raises, which this
definition records.  (Within the modelled date fragment — naive dates
and `NaT` only, see `dateCell` — every nonempty column is
datetime64-inferred; timezone-aware cells, which can also defeat the
inference and make the real `clean` raise, are outside the fragment,
and the totality theorem below excludes them by hypothesis.) -/
def cleanTableM1 (t : RawTable) : Except Unit (List Record) :=
  if t.rows = [] then Except.error ()
  else cleanRows t.hasPoints t.rows

/-- The deduplication key: `subset=["customer_id", "email"]` of
`drop_duplicates` (missing key components compare equal, as pandas
treats `NA`s in `drop_duplicates`). -/
def dkey (r : Record) : Option Int × Option PyStr :=
  (r.customer_id, r.email)

/-- Strict comparison of `customer_id` cells under
`ascending=True, na_position="last"`: a present id precedes a missing
one, present ids compare numerically. -/
def cidLt : Option Int → Option Int → Bool
  | some a, some b => a < b
  | some _, none => true
  | none, _ => false

/-- The (non-strict, total) row ordering of
`sort_values(["customer_id", "points"], ascending=[True, False])`:
`customer_id` ascending with missing ids last, ties broken by `points`
descending. -/
def mergeLe (a b : Record) : Bool :=
  cidLt a.customer_id b.customer_id ||
    (a.customer_id = b.customer_id && b.points ≤ a.points)

/-- The ordering `mergeLe` as a relation, for use with `List.insertionSort`. -/
def MergeLE (a b : Record) : Prop := mergeLe a b = true

instance : DecidableRel MergeLE := fun a b => by
  unfold MergeLE; infer_instance

/-- Deduplication `drop_duplicates(subset=["customer_id", "email"], keep="first")`:
scan the rows in order, keeping a row only when its key has not been
seen before. -/
def dropDupBy (seen : List (Option Int × Option PyStr)) :
    List Record → List Record
  | [] => []
  | r :: rs =>
    if dkey r ∈ seen then dropDupBy seen rs
    else r :: dropDupBy (dkey r :: seen) rs

/-- The merge of both scripts: concatenate the two cleaned datasets
(existing first), stable-sort by `(customer_id asc, points desc)`
(a multi-column `sort_values` is a stable lexicographic sort), then
drop duplicate `(customer_id, email)` keys keeping the first row. -/
def mergeRecords (existing incoming : List Record) : List Record :=
  dropDupBy [] (List.insertionSort MergeLE (existing ++ incoming))

/-- The first element of a list of Records attaining the maximal
`points` value (the specification-side description of the surviving
row of one duplicate group). -/
def firstMax : List Record → Option Record
  | [] => none
  | r :: rs =>
    match firstMax rs with
    | none => some r
    | some m => if m.points ≤ r.points then some r else some m

/-- The state of the ledger store (`PROCESSED_LOG`) on disk: absent
(`exists()` is false), present but unreadable (`exists()` is true and
`read_text()` raises, e.g. a permission error), or readable with its
lines. -/
inductive LedgerStore where
  | absent : LedgerStore
  | unreadable : LedgerStore
  | readable : List PyStr → LedgerStore
deriving DecidableEq, Repr

/-- Loading step ① of `append_batch.main`: `already = set()`, then
`if PROCESSED_LOG.exists(): already = set(x.strip() for x in
PROCESSED_LOG.read_text().splitlines())`.  An absent store leaves the
set empty; an existing-but-unreadable store makes `read_text()` raise,
failing the run; a readable store yields its stripped lines. -/
def loadAlready : LedgerStore → Except Unit (List PyStr)
  | LedgerStore.absent => Except.ok []
  | LedgerStore.unreadable => Except.error ()
  | LedgerStore.readable ls => Except.ok (ls.map pyStrip)

/-- The set of processed names for the loads that do not raise: `none`
stands for the absent store, `some lines` for a readable store —
`loadAlready` above is the full model including the raising load, and
`mainRunStore` below dispatches on it. -/
def alreadyOf : Option (List PyStr) → List PyStr
  | none => []
  | some lines => lines.map pyStrip

/-- The ledger filter of `append_batch.main`:
`[p for p in sorted(ADD_DIR.glob("*.csv")) if p.name not in already]`,
restricted to the identifiers.  The candidate order (the sorted directory
listing) is preserved. -/
def filter_new (cands : List PyStr) (already : List PyStr) : List PyStr :=
  cands.filter (fun n => n ∉ already)

/-- The whole state `append_batch.main` reads: the ledger store
(`none` = absent), the master CSV, and the sorted listing of candidate
CSV files (name and contents). -/
structure MainInput where
  ledger : Option (List PyStr)
  masterRaw : RawTable
  addFiles : List (PyStr × RawTable)
deriving DecidableEq, Repr

/-- The new files selected by `append_batch.main` step ②. -/
def newFilesOf (inp : MainInput) : List (PyStr × RawTable) :=
  inp.addFiles.filter (fun f => f.1 ∉ alreadyOf inp.ledger)

/-- The identifiers of the sources merged by this run (empty when the run
no-ops). -/
def runNames (inp : MainInput) : List PyStr :=
  (newFilesOf inp).map Prod.fst

/-- The state `append_batch.main` leaves behind: the written output CSV
(`none` on the "no new files" early return) and the ledger store
afterwards. -/
structure MainOutput where
  wrote : Option (List Record)
  ledgerLines : Option (List PyStr)
deriving DecidableEq, Repr

/-- Step ③ for the new files:
`pd.concat([clean(pd.read_csv(p)) for p in add_files])`. -/
def cleanAll : List (PyStr × RawTable) → Except Unit (List Record)
  | [] => Except.ok []
  | f :: fs =>
    match cleanTable f.2, cleanAll fs with
    | Except.ok recs, Except.ok rest => Except.ok (recs ++ rest)
    | Except.error e, _ => Except.error e
    | _, Except.error e => Except.error e

/-- The orchestrator `append_batch.main`: load the ledger, filter the candidates, stop if
nothing is new; otherwise clean the master and the new files, merge,
write the output, and only then append the processed names to the
ledger.  A `clean` failure aborts the run before any output or ledger
mutation. -/
def mainRun (inp : MainInput) : Except Unit MainOutput :=
  if newFilesOf inp = [] then Except.ok ⟨none, inp.ledger⟩
  else
    match cleanTable inp.masterRaw, cleanAll (newFilesOf inp) with
    | Except.ok master, Except.ok adds =>
      Except.ok ⟨some (mergeRecords master adds),
        some ((inp.ledger.getD []) ++ (newFilesOf inp).map Prod.fst)⟩
    | Except.error e, _ => Except.error e
    | _, Except.error e => Except.error e

/-- The whole of `append_batch.main` over the on-disk ledger state: the
`exists()`/`read_text()` prologue (`loadAlready`) followed by the run.
An unreadable store raises in the prologue and fails the run before any
output or ledger mutation. -/
def mainRunStore (store : LedgerStore) (m : RawTable)
    (fs : List (PyStr × RawTable)) : Except Unit MainOutput :=
  match store with
  | LedgerStore.absent => mainRun ⟨none, m, fs⟩
  | LedgerStore.unreadable => Except.error ()
  | LedgerStore.readable ls => mainRun ⟨some ls, m, fs⟩

/-- Membership test for one deduplication key. -/
def hasKey (k : Option Int × Option PyStr) (r : Record) : Bool :=
  dkey r = k

/-! ### The sort order is a total preorder -/

lemma mergeLe_total (a b : Record) : mergeLe a b = true ∨ mergeLe b a = true := by
  unfold mergeLe cidLt
  cases a.customer_id <;> cases b.customer_id <;> simp <;> omega

lemma mergeLe_trans (a b c : Record) (hab : mergeLe a b = true)
    (hbc : mergeLe b c = true) : mergeLe a c = true := by
  unfold mergeLe cidLt at hab hbc ⊢
  revert hab hbc
  cases ha : a.customer_id <;> cases hb : b.customer_id <;> cases hc : c.customer_id <;>
    simp <;> omega

instance : IsTotal Record MergeLE := ⟨fun a b => mergeLe_total a b⟩

instance : IsTrans Record MergeLE := ⟨fun a b c => mergeLe_trans a b c⟩

lemma mergeLe_of_eq_cid {a b : Record} (h : a.customer_id = b.customer_id) :
    mergeLe a b = true ↔ b.points ≤ a.points := by
  unfold mergeLe cidLt
  rw [h]
  cases b.customer_id <;> simp

/-! ### Deduplication keeps exactly the first row of each key group -/

lemma dropDupBy_sublist : ∀ (l : List Record) (seen), List.Sublist (dropDupBy seen l) l
  | [], _ => List.Sublist.refl []
  | r :: rs, seen => by
    unfold dropDupBy
    split
    · exact (dropDupBy_sublist rs seen).cons r
    · exact (dropDupBy_sublist rs (dkey r :: seen)).cons₂ r

lemma dropDupBy_filter_of_mem (k) : ∀ (l : List Record) (seen), k ∈ seen →
    (dropDupBy seen l).filter (hasKey k) = []
  | [], _, _ => rfl
  | r :: rs, seen, hk => by
    unfold dropDupBy
    split
    · exact dropDupBy_filter_of_mem k rs seen hk
    · rename_i hr
      have hne : hasKey k r = false := by
        simp only [hasKey, decide_eq_false_iff_not]
        intro h
        exact hr (h ▸ hk)
      rw [List.filter_cons_of_neg (by simp [hne])]
      exact dropDupBy_filter_of_mem k rs (dkey r :: seen) (List.mem_cons_of_mem _ hk)

lemma dropDupBy_filter_of_not_mem (k) : ∀ (l : List Record) (seen), k ∉ seen →
    (dropDupBy seen l).filter (hasKey k) = ((l.filter (hasKey k)).head?).toList
  | [], _, _ => rfl
  | r :: rs, seen, hk => by
    unfold dropDupBy
    split
    · rename_i hr
      have hne : hasKey k r = false := by
        simp only [hasKey, decide_eq_false_iff_not]
        intro h
        exact hk (h ▸ hr)
      rw [List.filter_cons_of_neg (by simp [hne])]
      exact dropDupBy_filter_of_not_mem k rs seen hk
    · rename_i hr
      by_cases hkr : dkey r = k
      · have hpos : hasKey k r = true := by simp [hasKey, hkr]
        rw [List.filter_cons_of_pos (by simp [hpos]),
          List.filter_cons_of_pos (by simp [hpos]),
          dropDupBy_filter_of_mem k rs (dkey r :: seen) (hkr ▸ List.mem_cons_self _ _)]
        rfl
      · have hne : hasKey k r = false := by simp [hasKey, hkr]
        rw [List.filter_cons_of_neg (by simp [hne]),
          List.filter_cons_of_neg (by simp [hne])]
        exact dropDupBy_filter_of_not_mem k rs (dkey r :: seen)
          (by
            intro h
            rcases List.mem_cons.mp h with h | h
            · exact hkr h.symm
            · exact hk h)

lemma dropDupBy_not_seen : ∀ (l : List Record) (seen) (r : Record),
    r ∈ dropDupBy seen l → dkey r ∉ seen
  | [], _, _, h => absurd h (List.not_mem_nil _)
  | a :: as, seen, r, h => by
    unfold dropDupBy at h
    split at h
    · exact dropDupBy_not_seen as seen r h
    · rcases List.mem_cons.mp h with rfl | h
      · assumption
      · intro hs
        exact dropDupBy_not_seen as (dkey a :: seen) r h (List.mem_cons_of_mem _ hs)

lemma dropDupBy_keys_nodup : ∀ (l : List Record) (seen),
    ((dropDupBy seen l).map dkey).Nodup
  | [], _ => List.nodup_nil
  | a :: as, seen => by
    unfold dropDupBy
    split
    · exact dropDupBy_keys_nodup as seen
    · rw [List.map_cons, List.nodup_cons]
      refine ⟨?_, dropDupBy_keys_nodup as (dkey a :: seen)⟩
      intro hmem
      rcases List.mem_map.mp hmem with ⟨r, hr, hkr⟩
      exact dropDupBy_not_seen as (dkey a :: seen) r hr (hkr ▸ List.mem_cons_self _ _)

lemma dropDupBy_eq_self : ∀ (l : List Record) (seen),
    (l.map dkey).Nodup → (∀ r ∈ l, dkey r ∉ seen) → dropDupBy seen l = l
  | [], _, _, _ => rfl
  | a :: as, seen, hnd, hdisj => by
    unfold dropDupBy
    rw [if_neg (hdisj a (List.mem_cons_self _ _))]
    rw [List.map_cons, List.nodup_cons] at hnd
    congr 1
    refine dropDupBy_eq_self as (dkey a :: seen) hnd.2 ?_
    intro r hr hmem
    rcases List.mem_cons.mp hmem with h | h
    · exact hnd.1 (h ▸ List.mem_map_of_mem dkey hr)
    · exact hdisj r (List.mem_cons_of_mem _ hr) h

/-! ### Filtering commutes with the stable sort -/

lemma orderedInsert_of_forall (a : Record) (l : List Record)
    (h : ∀ x ∈ l, MergeLE a x) :
    List.orderedInsert MergeLE a l = a :: l := by
  cases l with
  | nil => rfl
  | cons b t => exact List.orderedInsert_of_le MergeLE t (h b (List.mem_cons_self b t))

lemma filter_orderedInsert (p : Record → Bool) (a : Record) :
    ∀ l : List Record, List.Sorted MergeLE l →
      (List.orderedInsert MergeLE a l).filter p =
        if p a then List.orderedInsert MergeLE a (l.filter p) else l.filter p
  | [], _ => by
    by_cases hpa : p a = true <;> simp [List.orderedInsert, hpa]
  | b :: t, hs => by
    have ht : List.Sorted MergeLE t := hs.of_cons
    by_cases hab : MergeLE a b
    · rw [List.orderedInsert_of_le MergeLE t hab]
      have hall : ∀ x ∈ (b :: t).filter p, MergeLE a x := by
        intro x hx
        have hx' := List.mem_of_mem_filter hx
        rcases List.mem_cons.mp hx' with rfl | hxt
        · exact hab
        · exact mergeLe_trans a b x hab (List.rel_of_sorted_cons hs x hxt)
      by_cases hpa : p a = true
      · rw [if_pos hpa, List.filter_cons_of_pos hpa, orderedInsert_of_forall a _ hall]
      · rw [if_neg hpa, List.filter_cons_of_neg (by simpa using hpa)]
    · have hstep : List.orderedInsert MergeLE a (b :: t) =
          b :: List.orderedInsert MergeLE a t := by
        simp [List.orderedInsert, hab]
      rw [hstep]
      have IH := filter_orderedInsert p a t ht
      by_cases hpb : p b = true
      · rw [List.filter_cons_of_pos hpb, IH]
        by_cases hpa : p a = true
        · rw [if_pos hpa, if_pos hpa, List.filter_cons_of_pos hpb]
          simp [List.orderedInsert, hab]
        · rw [if_neg hpa, if_neg hpa, List.filter_cons_of_pos hpb]
      · rw [List.filter_cons_of_neg (by simpa using hpb), IH]
        by_cases hpa : p a = true
        · rw [if_pos hpa, if_pos hpa, List.filter_cons_of_neg (by simpa using hpb)]
        · rw [if_neg hpa, if_neg hpa, List.filter_cons_of_neg (by simpa using hpb)]

lemma filter_insertionSort (p : Record → Bool) :
    ∀ l : List Record, (List.insertionSort MergeLE l).filter p =
      List.insertionSort MergeLE (l.filter p)
  | [] => rfl
  | a :: as => by
    have hstep : List.insertionSort MergeLE (a :: as) =
        List.orderedInsert MergeLE a (List.insertionSort MergeLE as) := rfl
    rw [hstep, filter_orderedInsert p a _ (List.sorted_insertionSort MergeLE as),
      filter_insertionSort p as]
    by_cases hpa : p a = true
    · rw [if_pos hpa, List.filter_cons_of_pos hpa]
      rfl
    · rw [if_neg hpa, List.filter_cons_of_neg (by simpa using hpa)]

/-! ### The head of the sorted group is its first maximal-points member -/

lemma head_orderedInsert (a : Record) (l : List Record) :
    (List.orderedInsert MergeLE a l).head? =
      (match l.head? with
       | none => some a
       | some x => if MergeLE a x then some a else some x) := by
  cases l with
  | nil => rfl
  | cons b t => by_cases hab : MergeLE a b <;> simp [List.orderedInsert, hab]

lemma head_sort_eq_firstMax : ∀ (g : List Record) (c : Option Int),
    (∀ r ∈ g, r.customer_id = c) →
    (List.insertionSort MergeLE g).head? = firstMax g
  | [], _, _ => rfl
  | r :: rs, c, hc => by
    have hr : r.customer_id = c := hc r (List.mem_cons_self r rs)
    have hrs : ∀ x ∈ rs, x.customer_id = c := fun x hx =>
      hc x (List.mem_cons_of_mem _ hx)
    have IH := head_sort_eq_firstMax rs c hrs
    have hstep : List.insertionSort MergeLE (r :: rs) =
        List.orderedInsert MergeLE r (List.insertionSort MergeLE rs) := rfl
    rw [hstep, head_orderedInsert]
    cases hfm : firstMax rs with
    | none =>
      rw [hfm] at IH
      simp [firstMax, hfm, IH]
    | some m =>
      rw [hfm] at IH
      have hm : m ∈ rs := by
        have : m ∈ (List.insertionSort MergeLE rs).head? := by
          rw [IH]
          rfl
        exact (List.mem_insertionSort MergeLE).mp (List.mem_of_mem_head? this)
      have hmc : m.customer_id = c := hrs m hm
      have hiff : MergeLE r m ↔ m.points ≤ r.points :=
        mergeLe_of_eq_cid (hr.trans hmc.symm)
      simp only [IH, firstMax, hfm]
      by_cases hle : m.points ≤ r.points
      · rw [if_pos (hiff.mpr hle), if_pos hle]
      · rw [if_neg (fun h => hle (hiff.mp h)), if_neg hle]

/-! ### The first maximal-points member, characterised -/

lemma firstMax_eq_none : ∀ {g : List Record}, firstMax g = none → g = []
  | [], _ => rfl
  | r :: rs, h => by
    simp only [firstMax] at h
    cases hfm : firstMax rs <;> simp only [hfm] at h
    · exact absurd h (by simp)
    · split at h <;> simp at h

lemma firstMax_isSome {g : List Record} (hg : g ≠ []) : ∃ m, firstMax g = some m := by
  cases hfm : firstMax g with
  | none => exact absurd (firstMax_eq_none hfm) hg
  | some m => exact ⟨m, rfl⟩

lemma firstMax_spec : ∀ (g : List Record) (m : Record), firstMax g = some m →
    m ∈ g ∧ (∀ r ∈ g, r.points ≤ m.points) ∧
      ∃ l1 l2, g = l1 ++ m :: l2 ∧ ∀ r ∈ l1, r.points < m.points
  | [], m, h => absurd h (by simp [firstMax])
  | a :: as, m, h => by
    simp only [firstMax] at h
    cases hfm : firstMax as with
    | none =>
      simp only [hfm] at h
      obtain rfl : a = m := by simpa using h
      have hnil : as = [] := firstMax_eq_none hfm
      subst hnil
      exact ⟨List.mem_cons_self _ _, by simp, [], [], rfl, by simp⟩
    | some m' =>
      simp only [hfm] at h
      obtain ⟨hmem, hmax, l1, l2, hsplit, hpre⟩ := firstMax_spec as m' hfm
      by_cases hle : m'.points ≤ a.points
      · rw [if_pos hle] at h
        obtain rfl : a = m := by simpa using h
        refine ⟨List.mem_cons_self _ _, ?_, [], as, rfl, by simp⟩
        intro r hrm
        rcases List.mem_cons.mp hrm with rfl | hrm
        · exact le_refl _
        · exact le_trans (hmax r hrm) hle
      · rw [if_neg hle] at h
        obtain rfl : m' = m := by simpa using h
        push_neg at hle
        refine ⟨List.mem_cons_of_mem _ hmem, ?_, a :: l1, l2, by rw [hsplit]; rfl, ?_⟩
        · intro r hrm
          rcases List.mem_cons.mp hrm with rfl | hrm
          · exact le_of_lt hle
          · exact hmax r hrm
        · intro r hrm
          rcases List.mem_cons.mp hrm with rfl | hrm
          · exact hle
          · exact hpre r hrm

/-! ### The per-key description of the merge output -/

lemma merge_filter_key (A B : List Record) (k : Option Int × Option PyStr) :
    (mergeRecords A B).filter (hasKey k) =
      (firstMax ((A ++ B).filter (hasKey k))).toList := by
  unfold mergeRecords
  rw [dropDupBy_filter_of_not_mem k _ [] (List.not_mem_nil k),
    filter_insertionSort (hasKey k) (A ++ B)]
  have hc : ∀ r ∈ (A ++ B).filter (hasKey k), r.customer_id = k.1 := by
    intro r hrm
    have hp := List.of_mem_filter hrm
    have hk : dkey r = k := by simpa [hasKey] using hp
    rw [← hk]
    rfl
  rw [head_sort_eq_firstMax _ k.1 hc]

/-! ### NFKC facts used for `normalize_str` -/

lemma nfkc_append : ∀ a b : PyStr, nfkc (a ++ b) = nfkc a ++ nfkc b
  | [], _ => rfl
  | c :: cs, b => by
    show nfkcChar c ++ nfkc (cs ++ b) = (nfkcChar c ++ nfkc cs) ++ nfkc b
    rw [nfkc_append cs b, List.append_assoc]

lemma nfkcChar_fixed (c : Char) : nfkc (nfkcChar c) = nfkcChar c := by
  by_cases h0 : c = 'ͺ'
  · subst h0; decide
  by_cases h1 : c = '０'
  · subst h1; decide
  by_cases h2 : c = '１'
  · subst h2; decide
  by_cases h3 : c = '２'
  · subst h3; decide
  by_cases h4 : c = '３'
  · subst h4; decide
  by_cases h5 : c = '４'
  · subst h5; decide
  by_cases h6 : c = '５'
  · subst h6; decide
  by_cases h7 : c = '６'
  · subst h7; decide
  by_cases h8 : c = '７'
  · subst h8; decide
  by_cases h9 : c = '８'
  · subst h9; decide
  by_cases h10 : c = '９'
  · subst h10; decide
  simp [nfkc, nfkcChar, h0, h1, h2, h3, h4, h5, h6, h7, h8, h9, h10]

lemma nfkc_idem : ∀ s : PyStr, nfkc (nfkc s) = nfkc s
  | [] => rfl
  | c :: cs => by
    simp only [nfkc, nfkc_append, nfkcChar_fixed c, nfkc_idem cs]

lemma normalize_str_never_empty (s : Option PyStr) : normalize_str s ≠ some [] := by
  cases s with
  | none => simp [normalize_str]
  | some s =>
    unfold normalize_str
    split
    · simp
    · rename_i h
      simp [h]

/-! ### Row-level consequences of `clean` -/

lemma normalize_phone_some {p : Option PyStr} {d : PyStr}
    (h : normalize_phone p = some d) :
    (d.length = 10 ∨ d.length = 11) ∧ ∀ c ∈ d, isPyDigit c = true := by
  cases p with
  | none => cases h
  | some s =>
    simp only [normalize_phone] at h
    by_cases hlen : (s.filter isPyDigit).length = 10 ∨ (s.filter isPyDigit).length = 11
    · rw [if_pos hlen] at h
      cases h
      exact ⟨hlen, fun c hc => List.of_mem_filter hc⟩
    · rw [if_neg hlen] at h
      cases h

lemma cleanRow_ok (h : Bool) (r : RawRow) (rec : Record)
    (hok : cleanRow h r = Except.ok rec) :
    toInt64 (toNumeric (normalize_str r.customer_id)) = Except.ok rec.customer_id ∧
    pointsInt64 (toNumeric (if h then r.points else none)) = Except.ok rec.points ∧
    rec.name = normalize_str r.name ∧
    rec.email = normalize_str r.email ∧
    rec.phone = normalize_phone (normalize_str r.phone) ∧
    rec.address = normalize_str r.address ∧
    rec.join_date = normalize_date r.join_date := by
  unfold cleanRow at hok
  cases h1 : toInt64 (toNumeric (normalize_str r.customer_id)) with
  | error e =>
    cases h2 : pointsInt64 (toNumeric (if h then r.points else none)) with
    | error e2 => rw [h1, h2] at hok; simp at hok
    | ok pts => rw [h1, h2] at hok; simp at hok
  | ok cid =>
    cases h2 : pointsInt64 (toNumeric (if h then r.points else none)) with
    | error e =>
      rw [h1, h2] at hok
      simp at hok
    | ok pts =>
      rw [h1, h2] at hok
      simp only [Except.ok.injEq] at hok
      subst hok
      exact ⟨rfl, rfl, rfl, rfl, rfl, rfl, rfl⟩

/-- A numeric cell on which the `Int64` cast provably succeeds: missing,
or an integral value of magnitude below `2 ^ 53` — the window in which
the exact decimal of the model, its float64 rounding, and the `int64`
range all agree.  Infinite cells, non-integral cells and huge cells
(where float64 rounding or the `int64` bound can make the real cast
raise) are excluded. -/
def intCell (q : Option PyNum) : Bool :=
  match q with
  | none => true
  | some (PyNum.finite x) =>
    x.den = 1 && -9007199254740992 < x.num && x.num < 9007199254740992
  | some (PyNum.infinite _) => false

lemma toInt64_ok_of_intCell {q : Option PyNum} (h : intCell q = true) :
    ∃ v, toInt64 q = Except.ok v := by
  cases q with
  | none => exact ⟨none, rfl⟩
  | some x =>
    cases x with
    | finite x =>
      have hx : (x.den = 1 ∧ -9007199254740992 < x.num) ∧ x.num < 9007199254740992 := by
        simpa [intCell] using h
      have hrange : int64Min ≤ x.num ∧ x.num ≤ int64Max := by
        unfold int64Min int64Max
        omega
      exact ⟨some x.num, by simp [toInt64, hx.1.1, hrange.1, hrange.2]⟩
    | infinite b => simp [intCell] at h

lemma pointsInt64_ok_of_intCell {q : Option PyNum} (h : intCell q = true) :
    ∃ v, pointsInt64 q = Except.ok v := by
  cases q with
  | none => exact ⟨0, rfl⟩
  | some x =>
    cases x with
    | finite x =>
      have hx : (x.den = 1 ∧ -9007199254740992 < x.num) ∧ x.num < 9007199254740992 := by
        simpa [intCell] using h
      have hrange : int64Min ≤ x.num ∧ x.num ≤ int64Max := by
        unfold int64Min int64Max
        omega
      exact ⟨x.num, by simp [pointsInt64, hx.1.1, hrange.1, hrange.2]⟩
    | infinite b => simp [intCell] at h

lemma cleanRow_ok_of_intCell (h : Bool) (r : RawRow)
    (h1 : intCell (toNumeric (normalize_str r.customer_id)) = true)
    (h2 : intCell (toNumeric (if h then r.points else none)) = true) :
    ∃ rec, cleanRow h r = Except.ok rec := by
  obtain ⟨cid, hc⟩ := toInt64_ok_of_intCell h1
  obtain ⟨pts, hp⟩ := pointsInt64_ok_of_intCell h2
  unfold cleanRow
  rw [hc, hp]
  exact ⟨_, rfl⟩

lemma cleanRows_ok_of_intCell (h : Bool) :
    ∀ rows : List RawRow,
      (∀ r ∈ rows,
        intCell (toNumeric (normalize_str r.customer_id)) = true ∧
        intCell (toNumeric (if h then r.points else none)) = true) →
      ∃ out, cleanRows h rows = Except.ok out
  | [], _ => ⟨[], rfl⟩
  | r :: rs, hall => by
    obtain ⟨rec, hrec⟩ := cleanRow_ok_of_intCell h r
      (hall r (List.mem_cons_self _ _)).1 (hall r (List.mem_cons_self _ _)).2
    obtain ⟨recs, hrecs⟩ := cleanRows_ok_of_intCell h rs
      (fun x hx => hall x (List.mem_cons_of_mem _ hx))
    refine ⟨rec :: recs, ?_⟩
    unfold cleanRows
    rw [hrec, hrecs]

/-! ### Re-merging is the identity on merged output -/

lemma merge_remerge (A B : List Record) :
    mergeRecords (mergeRecords A B) [] = mergeRecords A B := by
  unfold mergeRecords
  rw [List.append_nil]
  have hS : List.Sorted MergeLE (List.insertionSort MergeLE (A ++ B)) :=
    List.sorted_insertionSort MergeLE (A ++ B)
  have hsub := dropDupBy_sublist (List.insertionSort MergeLE (A ++ B)) []
  have hCs : List.Sorted MergeLE
      (dropDupBy [] (List.insertionSort MergeLE (A ++ B))) :=
    List.Pairwise.sublist hsub hS
  rw [hCs.insertionSort_eq]
  exact dropDupBy_eq_self _ [] (dropDupBy_keys_nodup _ _) (fun r _ => List.not_mem_nil _)

/-! ## The claims -/

/-- A sample Record: customer 5, email "a", 10 points. -/
def ex5a10 : Record := ⟨some 5, none, some ['a'], none, none, none, 10⟩

/-- A sample Record: customer 5, email "a", 50 points. -/
def ex5a50 : Record := ⟨some 5, none, some ['a'], none, none, none, 50⟩

/-- A sample Record: customer 1, email "b", 0 points. -/
def ex1b0 : Record := ⟨some 1, none, some ['b'], none, none, none, 0⟩

/-- C1: for every pair of input datasets and every `(customer_id, email)`
key occurring in their concatenation, exactly one Record with that key
survives in the merged output; its `points` value is the maximum `points`
among all input Records sharing that key; and it is the earliest Record of
the concatenation (existing dataset first, then incoming, each in original
order) among those attaining that maximum. -/
theorem merged_unique_survivor_max_points (A B : List Record)
    (k : Option Int × Option PyStr)
    (hk : (A ++ B).filter (hasKey k) ≠ []) :
    ∃ m, (mergeRecords A B).filter (hasKey k) = [m] ∧
      m ∈ (A ++ B).filter (hasKey k) ∧
      (∀ r ∈ (A ++ B).filter (hasKey k), r.points ≤ m.points) ∧
      ∃ l1 l2, (A ++ B).filter (hasKey k) = l1 ++ m :: l2 ∧
        ∀ r ∈ l1, r.points < m.points := by
  obtain ⟨m, hm⟩ := firstMax_isSome hk
  obtain ⟨hmem, hmax, hsplit⟩ := firstMax_spec _ m hm
  refine ⟨m, ?_, hmem, hmax, hsplit⟩
  rw [merge_filter_key, hm]
  rfl

/-- Witness for C1, instantiated at the two duplicate `(5, "a")` rows of
§8 Scenario B (points 10 in the existing dataset, 50 in the incoming). -/
theorem merged_unique_survivor_max_points_witness :
    ∃ m, (mergeRecords [ex5a10, ex1b0] [ex5a50]).filter
          (hasKey (some 5, some ['a'])) = [m] ∧
      m ∈ ([ex5a10, ex1b0] ++ [ex5a50]).filter (hasKey (some 5, some ['a'])) ∧
      (∀ r ∈ ([ex5a10, ex1b0] ++ [ex5a50]).filter (hasKey (some 5, some ['a'])),
        r.points ≤ m.points) ∧
      ∃ l1 l2, ([ex5a10, ex1b0] ++ [ex5a50]).filter
          (hasKey (some 5, some ['a'])) = l1 ++ m :: l2 ∧
        ∀ r ∈ l1, r.points < m.points :=
  merged_unique_survivor_max_points _ _ _ (by decide)

/-- C6: the merge is deterministic — running it twice on the same two
input datasets yields the same surviving sequence, bit for bit — and,
moreover, re-merging its own output (with nothing new) reproduces it
exactly. -/
theorem merge_deterministic_and_remerge_stable :
    (∀ A B A2 B2 : List Record, A = A2 → B = B2 →
      mergeRecords A B = mergeRecords A2 B2) ∧
    (∀ A B : List Record, mergeRecords (mergeRecords A B) [] = mergeRecords A B) :=
  ⟨fun _ _ _ _ hA hB => hA ▸ hB ▸ rfl, merge_remerge⟩

/-- Witness for C6 at a concrete pair of datasets. -/
theorem merge_deterministic_and_remerge_stable_witness :
    mergeRecords [ex5a10] [ex5a50] = mergeRecords [ex5a10] [ex5a50] :=
  merge_deterministic_and_remerge_stable.1 _ _ _ _ rfl rfl

/-- C10: the merge invents no Records — every Record of the merged output
occurs in the concatenation of the two inputs, and the output is no longer
than the two inputs together. -/
theorem merge_invents_no_records (A B : List Record) :
    (∀ r ∈ mergeRecords A B, r ∈ A ++ B) ∧
      (mergeRecords A B).length ≤ A.length + B.length := by
  constructor
  · intro r hr
    have h1 : r ∈ List.insertionSort MergeLE (A ++ B) :=
      (dropDupBy_sublist (List.insertionSort MergeLE (A ++ B)) []).subset hr
    exact (List.mem_insertionSort MergeLE).mp h1
  · have h1 := (dropDupBy_sublist (List.insertionSort MergeLE (A ++ B)) []).length_le
    rw [List.length_insertionSort, List.length_append] at h1
    exact h1

/-- Witness for C10: the surviving Record of a duplicate pair is one of
the input Records. -/
theorem merge_invents_no_records_witness : ex5a50 ∈ [ex5a10] ++ [ex5a50] :=
  (merge_invents_no_records [ex5a10] [ex5a50]).1 _ (by decide)

/-- C2 counterexample: a phone cell of ten Arabic-Indic digits
(U+0660–U+0669) survives `normalize_phone` — and the whole `clean`
pipeline, since NFKC leaves these characters unchanged — although none
of its characters is an ASCII digit.  Python's `\d` matches every Unicode
decimal digit, not only `[0-9]`. -/
theorem phone_nonascii_survives :
    cleanRow true
        ⟨some "1".toList, none, none, some "٠١٢٣٤٥٦٧٨٩".toList,
          none, none, none⟩ =
      Except.ok ⟨some 1, none, none, some "٠١٢٣٤٥٦٧٨٩".toList, none, none, 0⟩ ∧
    normalize_phone (some "٠١٢٣٤٥٦٧٨٩".toList) = some "٠١٢٣٤٥٦٧٨٩".toList ∧
    '٠' ∈ "٠١٢٣٤٥٦٧٨٩".toList ∧ Char.isDigit '٠' = false := by
  refine ⟨by decide, by decide, by decide, by decide⟩

/-- C2 (amended): for every Record produced by `clean`, the phone field is
null or a string of exactly 10 or 11 characters, each of which is a
Unicode decimal digit (the class matched by Python's `\d`); the digits
are not necessarily ASCII. -/
theorem clean_phone_digit_invariant (h : Bool) (r : RawRow) (rec : Record)
    (hok : cleanRow h r = Except.ok rec) :
    rec.phone = none ∨
      ∃ d, rec.phone = some d ∧ (d.length = 10 ∨ d.length = 11) ∧
        ∀ c ∈ d, isPyDigit c = true := by
  obtain ⟨-, -, -, -, hp, -, -⟩ := cleanRow_ok h r rec hok
  cases hd : normalize_phone (normalize_str r.phone) with
  | none => exact Or.inl (hp.trans hd)
  | some d =>
    obtain ⟨hlen, hdig⟩ := normalize_phone_some hd
    exact Or.inr ⟨d, hp.trans hd, hlen, hdig⟩

/-- Witness for the amended C2, at §8 Scenario A's phone value. -/
theorem clean_phone_digit_invariant_witness :
    (⟨some 1, none, none, some "09012345678".toList, none, none, 0⟩ :
        Record).phone = none ∨
      ∃ d, (⟨some 1, none, none, some "09012345678".toList, none, none, 0⟩ :
          Record).phone = some d ∧ (d.length = 10 ∨ d.length = 11) ∧
        ∀ c ∈ d, isPyDigit c = true :=
  clean_phone_digit_invariant true
    ⟨some "1".toList, none, none, some "090-1234-5678".toList, none, none, none⟩
    _ (by decide)

/-- C3 counterexample: `normalize_str` is not idempotent.  On U+037A
(GREEK YPOGEGRAMMENI) the first pass strips nothing and NFKC produces
`" ͅ"` (SPACE + U+0345) — with a leading space, because stripping happens
before NFKC — so a second pass strips that space and yields a different
string. -/
theorem normalize_str_not_idempotent :
    normalize_str (normalize_str (some "ͺ".toList)) ≠
      normalize_str (some "ͺ".toList) := by
  decide

/-- C3 (amended): `normalize_str` never yields the empty string, and it is
idempotent on every input whose canonical form carries no leading or
trailing whitespace (which full-width/half-width folding can introduce,
as in the counterexample). -/
theorem normalize_str_idem_of_stripped (s : Option PyStr) (t : PyStr)
    (h : normalize_str s = some t) :
    t ≠ [] ∧ (pyStrip t = t → normalize_str (some t) = some t) := by
  cases s with
  | none => cases h
  | some s =>
    simp only [normalize_str] at h
    by_cases hnil : nfkc (pyStrip s) = []
    · rw [if_pos hnil] at h
      cases h
    · rw [if_neg hnil] at h
      cases h
      refine ⟨hnil, fun hst => ?_⟩
      have hdef : normalize_str (some (nfkc (pyStrip s))) =
          if nfkc (pyStrip (nfkc (pyStrip s))) = [] then none
          else some (nfkc (pyStrip (nfkc (pyStrip s)))) := rfl
      rw [hdef, hst, nfkc_idem, if_neg hnil]

/-- Witness for the amended C3 on an ordinary ASCII string. -/
theorem normalize_str_idem_of_stripped_witness :
    normalize_str (some "abc".toList) = some "abc".toList :=
  (normalize_str_idem_of_stripped (some " abc ".toList) "abc".toList
    (by decide)).2 (by decide)

/-- C4 counterexample: `clean` is not total.  A `customer_id` cell `"3.7"`
coerces (`pd.to_numeric`) to the non-integral value 3.7 and the
subsequent `.astype("Int64")` raises
(`cannot safely cast non-equivalent float64 to int64`); a cell `"inf"`
coerces to infinity and the cast raises as well; and
`merge_practice1.py`'s `clean` raises on a 0-row table, whose applied
`join_date` column is not datetime-typed when `.dt.strftime` reaches it.
In each case the run aborts instead of degrading to null. -/
theorem clean_raises_on_nonintegral :
    cleanTable ⟨true, [⟨some "3.7".toList, none, none, none, none, none, none⟩]⟩ =
        Except.error () ∧
    cleanTable ⟨true, [⟨some "inf".toList, none, none, none, none, none, none⟩]⟩ =
        Except.error () ∧
    cleanTableM1 ⟨true, []⟩ = Except.error () := by
  refine ⟨by decide, by decide, by decide⟩

/-- C4 (amended): the four scalar normalizers are total.
`append_batch.py`'s `clean` returns a normalized table — without
raising — for every raw table whose `customer_id` and `points` cells are
each missing, non-numeric, or integral values inside the float64
exact-integer window (`intCell`); numeric cells outside it — non-integral
like `"3.7"`, infinite like `"inf"`, or huge like `"1e300"` — make the
`Int64` cast raise.  `merge_practice1.py`'s `clean` additionally raises
on 0-row tables, and is total under the same cell conditions on nonempty
tables whose `join_date` cells lie in the naive-date fragment
(`dateCell`), which keeps its column-level `.dt.strftime` step from
raising. -/
theorem clean_total_on_integral_cells (t : RawTable)
    (h : ∀ r ∈ t.rows,
      intCell (toNumeric (normalize_str r.customer_id)) = true ∧
      intCell (toNumeric (if t.hasPoints then r.points else none)) = true) :
    (∃ out, cleanTable t = Except.ok out) ∧
    (t.rows ≠ [] → (∀ r ∈ t.rows, dateCell r.join_date = true) →
      ∃ out, cleanTableM1 t = Except.ok out) := by
  refine ⟨cleanRows_ok_of_intCell t.hasPoints t.rows h, fun hne _ => ?_⟩
  unfold cleanTableM1
  rw [if_neg hne]
  exact cleanRows_ok_of_intCell t.hasPoints t.rows h

/-- Witness for the amended C4: a nonempty table with a well-formed id,
a non-numeric id and a missing id — and in-fragment dates — cleans
successfully under both scripts' `clean`. -/
theorem clean_total_on_integral_cells_witness :
    ∃ out, cleanTableM1 ⟨true,
      [⟨some "12".toList, none, none, none, none,
         some "2020-01-03".toList, some "-5".toList⟩,
       ⟨some "abc".toList, none, none, none, none, none, none⟩,
       ⟨none, none, none, none, none, none, some "x".toList⟩]⟩ =
      Except.ok out :=
  (clean_total_on_integral_cells _ (by decide)).2 (by decide) (by decide)

/-- C5 counterexample: a `points` cell `"-5"` passes `clean` unchanged, so
a Record can leave `clean` with negative points; non-negativity is not
enforced anywhere. -/
theorem clean_passes_negative_points :
    cleanRow true ⟨some "1".toList, none, none, none, none, none,
        some "-5".toList⟩ =
      Except.ok ⟨some 1, none, none, none, none, none, -5⟩ ∧
    (-5 : Int) < 0 := by
  refine ⟨by decide, by decide⟩

/-- C5 (amended): `points` is never null — every Record leaving `clean`
carries the integer obtained from its points cell, with absent or
unparseable cells defaulting to 0 — but negative values pass through. -/
theorem clean_points_never_null (h : Bool) (r : RawRow) (rec : Record)
    (hok : cleanRow h r = Except.ok rec) :
    (toNumeric (if h then r.points else none) = none → rec.points = 0) ∧
    (∀ q, toNumeric (if h then r.points else none) = some (PyNum.finite q) →
      rec.points = q.num) ∧
    (∀ b, toNumeric (if h then r.points else none) ≠ some (PyNum.infinite b)) := by
  obtain ⟨-, hp, -, -, -, -, -⟩ := cleanRow_ok h r rec hok
  refine ⟨?_, ?_, ?_⟩
  · intro hq
    rw [hq] at hp
    have h0 : (0 : Int) = rec.points := by simpa [pointsInt64] using hp
    exact h0.symm
  · intro q hq
    rw [hq] at hp
    simp only [pointsInt64] at hp
    by_cases hcond : q.den = 1 ∧ int64Min ≤ q.num ∧ q.num ≤ int64Max
    · rw [if_pos hcond] at hp
      simp only [Except.ok.injEq] at hp
      exact hp.symm
    · rw [if_neg hcond] at hp
      exact absurd hp (by simp)
  · intro b hq
    rw [hq] at hp
    simp [pointsInt64] at hp

/-- Witness for the amended C5: an absent points cell defaults to 0. -/
theorem clean_points_never_null_witness :
    (toNumeric (if true then (none : Option PyStr) else none) = none →
      (⟨some 1, none, none, none, none, none, 0⟩ : Record).points = 0) ∧
    (∀ q, toNumeric (if true then (none : Option PyStr) else none) =
        some (PyNum.finite q) →
      (⟨some 1, none, none, none, none, none, 0⟩ : Record).points = q.num) ∧
    (∀ b, toNumeric (if true then (none : Option PyStr) else none) ≠
        some (PyNum.infinite b)) :=
  clean_points_never_null true
    ⟨some "1".toList, none, none, none, none, none, none⟩ _ (by decide)

lemma alreadyOf_getD (o : Option (List PyStr)) :
    List.map pyStrip (o.getD []) = alreadyOf o := by
  cases o <;> rfl

/-- C7: `filter_new` returns exactly the candidates not in the
already-processed set, in their original order (a sublist of the
candidate listing), and a candidate already present in the ledger is
never among the files a run merges. -/
theorem filter_new_excludes_processed :
    (∀ cands already x, x ∈ filter_new cands already ↔ x ∈ cands ∧ x ∉ already) ∧
    (∀ cands already, List.Sublist (filter_new cands already) cands) ∧
    (∀ inp : MainInput, ∀ n t, n ∈ alreadyOf inp.ledger → (n, t) ∉ newFilesOf inp) := by
  refine ⟨?_, ?_, ?_⟩
  · intro cands already x
    simp [filter_new, List.mem_filter]
  · intro cands already
    exact List.filter_sublist cands
  · intro inp n t hn hmem
    have hp := List.of_mem_filter hmem
    simp only [decide_eq_true_eq] at hp
    exact hp hn

/-- Witness for C7: `b.csv` is new when only `a.csv` was processed. -/
theorem filter_new_excludes_processed_witness :
    "b.csv".toList ∈ filter_new ["a.csv".toList, "b.csv".toList] ["a.csv".toList] :=
  (filter_new_excludes_processed.1 _ _ _).mpr ⟨by decide, by decide⟩

/-- C8 counterexample: the code checks only `PROCESSED_LOG.exists()`, so
an existing-but-unreadable ledger store is not treated as empty — its
`read_text()` raises, the load yields no set at all, and a run that
would otherwise have merged a new file fails instead. -/
theorem ledger_unreadable_fails_run :
    loadAlready LedgerStore.unreadable = Except.error () ∧
    loadAlready LedgerStore.unreadable ≠ Except.ok [] ∧
    mainRunStore LedgerStore.unreadable ⟨true, []⟩
        [("f.csv".toList, ⟨true, []⟩)] = Except.error () ∧
    mainRunStore LedgerStore.absent ⟨true, []⟩
        [("f.csv".toList, ⟨true, []⟩)] ≠ Except.error () := by
  refine ⟨rfl, by decide, rfl, by decide⟩

/-- C8 (amended): an absent ledger store — the only "unreadable" case the
code handles, since it checks `exists()` only — loads as the empty set
of processed names, and the run then proceeds exactly as with an empty
ledger file (first-run behavior); an existing-but-unreadable store
instead fails the run.  A readable store loads as its stripped lines,
without failing. -/
theorem ledger_absent_as_empty :
    loadAlready LedgerStore.absent = Except.ok [] ∧
    (∀ ls, loadAlready (LedgerStore.readable ls) =
      Except.ok (alreadyOf (some ls))) ∧
    ∀ (m : RawTable) (fs : List (PyStr × RawTable)),
      Except.map MainOutput.wrote (mainRunStore LedgerStore.absent m fs) =
        Except.map MainOutput.wrote (mainRunStore (LedgerStore.readable []) m fs) := by
  refine ⟨rfl, fun ls => rfl, ?_⟩
  intro m fs
  show Except.map MainOutput.wrote (mainRun ⟨none, m, fs⟩) =
    Except.map MainOutput.wrote (mainRun ⟨some [], m, fs⟩)
  unfold mainRun
  by_cases hnf : newFilesOf ⟨none, m, fs⟩ = []
  · have hnf2 : newFilesOf ⟨some [], m, fs⟩ = [] := hnf
    rw [if_pos hnf, if_pos hnf2]
    rfl
  · have hnf2 : ¬newFilesOf ⟨some [], m, fs⟩ = [] := hnf
    rw [if_neg hnf, if_neg hnf2]
    rfl

/-- C9: after a successful run the set of processed names is the pre-run
set united with the names of the sources merged this run — in particular
a superset of the pre-run set; nothing is ever removed.  (Names are
assumed strip-invariant — true of any file name without surrounding
whitespace — since the ledger loader strips each stored line.) -/
theorem ledger_monotone_union (inp : MainInput) (out : MainOutput)
    (hok : mainRun inp = Except.ok out)
    (hnm : ∀ f ∈ inp.addFiles, pyStrip f.1 = f.1) :
    (∀ x ∈ alreadyOf inp.ledger, x ∈ alreadyOf out.ledgerLines) ∧
    (∀ x, x ∈ alreadyOf out.ledgerLines ↔
      x ∈ alreadyOf inp.ledger ∨ x ∈ runNames inp) := by
  have hnames : List.map pyStrip ((newFilesOf inp).map Prod.fst) =
      (newFilesOf inp).map Prod.fst := by
    have hall : ∀ n ∈ (newFilesOf inp).map Prod.fst, pyStrip n = n := by
      intro n hn
      obtain ⟨f, hf, rfl⟩ := List.mem_map.mp hn
      exact hnm f (List.mem_of_mem_filter hf)
    rw [List.map_congr_left hall]
    simp
  unfold mainRun at hok
  by_cases hnf : newFilesOf inp = []
  · rw [if_pos hnf] at hok
    simp only [Except.ok.injEq] at hok
    subst hok
    refine ⟨fun x hx => hx, fun x => ?_⟩
    simp [runNames, hnf]
  · rw [if_neg hnf] at hok
    cases hm : cleanTable inp.masterRaw with
    | error e =>
      cases ha : cleanAll (newFilesOf inp) with
      | error e2 => rw [hm, ha] at hok; simp at hok
      | ok adds => rw [hm, ha] at hok; simp at hok
    | ok master =>
      cases ha : cleanAll (newFilesOf inp) with
      | error e => rw [hm, ha] at hok; simp at hok
      | ok adds =>
        rw [hm, ha] at hok
        simp only [Except.ok.injEq] at hok
        subst hok
        have hled : alreadyOf (some (inp.ledger.getD [] ++
            (newFilesOf inp).map Prod.fst)) =
            alreadyOf inp.ledger ++ (newFilesOf inp).map Prod.fst := by
          show List.map pyStrip (inp.ledger.getD [] ++
              (newFilesOf inp).map Prod.fst) = _
          rw [List.map_append, alreadyOf_getD, hnames]
        refine ⟨fun x hx => ?_, fun x => ?_⟩
        · show x ∈ alreadyOf (some (inp.ledger.getD [] ++
            (newFilesOf inp).map Prod.fst))
          rw [hled]
          exact List.mem_append_left _ hx
        · show x ∈ alreadyOf (some (inp.ledger.getD [] ++
              (newFilesOf inp).map Prod.fst)) ↔ _
          rw [hled]
          exact List.mem_append

/-- Witness for C9: a first run over one file `f.csv` leaves a ledger
whose processed set contains `f.csv`. -/
theorem ledger_monotone_union_witness :
    "f.csv".toList ∈ alreadyOf (MainOutput.mk (some [])
      (some ["f.csv".toList])).ledgerLines :=
  ((ledger_monotone_union
      ⟨none, ⟨true, []⟩, [("f.csv".toList, ⟨true, []⟩)]⟩
      ⟨some [], some ["f.csv".toList]⟩ (by decide) (by decide)).2
    "f.csv".toList).mpr (Or.inr (by decide))

end MergePractice
